import Mathlib

/-!
Shallow embedding of the polyhts screening engine (`polyhts/session.py`,
class `Session`): composition enumeration (`get_polymer_compositions`),
reverse-symmetry deduplication and dispatch (`screening_protocol`), session
construction (`Session.__init__`), the five-stage per-composition pipeline
with its failure handling, and the final output sort (`output_sort`).

The five pipeline stages themselves (structure generation, conformer search,
geometry optimization, potential and excitation calculations) call external
numerical engines and are treated as black boxes, exactly as the design
treats them: each stage either succeeds or raises, and only the sequencing,
deduplication and failure-recovery logic around them is modelled.
-/

namespace PolyHTS

/-- A composition: an ordered tuple of monomer identifiers (the `permutation`
variable of `session.py`). -/
abbrev Composition := List String

/-- Embedding of `itertools.product(monomers, repeat=L)` as used by
`Session.get_polymer_compositions` (session.py lines 209-212): the Cartesian
product of the monomer-identifier list with itself `L` times, emitted with
the first position most significant and each position cycling through the
catalog in catalog order (the order of `list(monomers_dict)`). -/
def productRepeat (ms : List String) : Nat → List Composition
  | 0 => [[]]
  | n + 1 => ms.flatMap fun m => (productRepeat ms n).map fun t => m :: t

/-- Embedding of the random-selection loop of `Session.get_polymer_compositions`
(session.py lines 216-226).  `prod` is the materialized product space and
`draws` is the stream of values produced by the successive
`random.randint(0, len_product)` calls; note Python's `randint` upper bound
is inclusive, so a draw equal to `len_product` matches no index of the
product, yields nothing, and the `while` loop simply draws again.  A valid
draw yields the composition at that index and increments `counter` —
duplicate draws included, since the loop itself performs no dedup.  The loop
stops once `counter` reaches the requested count; the model also stops when
the observed draw stream runs out. -/
def randomLoop (prod : List Composition) : Nat → List Nat → List Composition
  | _, [] => []
  | k, d :: ds =>
    if k = 0 then []
    else
      match prod[d]? with
      | some item => item :: randomLoop prod (k - 1) ds
      | none => randomLoop prod k ds

/-- Embedding of `Session.get_polymer_compositions` (session.py lines
205-226).  `random_select = 0` models the Python falsy values
(`random_select=False`, the default, and `0`): the exhaustive generator.
Any nonzero `random_select` takes the random branch, which first counts the
product space (`len_product`) and then draws; the source performs no
validation of `random_select` against `len_product` and contains no `raise`.
`draws` models the RNG stream observed by the loop. -/
def get_polymer_compositions (ms : List String) (length_repeat : Nat)
    (random_select : Nat) (draws : List Nat) : List Composition :=
  if random_select = 0 then productRepeat ms length_repeat
  else randomLoop (productRepeat ms length_repeat) random_select draws

/-- One dedup-and-record step of `Session.screening_protocol` (session.py
lines 175-180) as it acts on the work-log file `temp`: the composition is
appended exactly when neither it nor its reverse is already present;
otherwise the dispatch is skipped and the log is unchanged.  This is the
sequential semantics of the read-check-append sequence; the race between
concurrent workers that the design document flags as a known weakness is a
property of the scheduler, not of this check, and is not modelled. -/
def dedupStep (log : List Composition) (p : Composition) : List Composition :=
  if p ∈ log ∨ p.reverse ∈ log then log else log ++ [p]

/-- Work-log contents after the dedup checks of `screening_protocol` have
processed the enumerated compositions `ps` in order, starting from work-log
contents `log`. -/
def runDedup (log : List Composition) (ps : List Composition) : List Composition :=
  ps.foldl dedupStep log

/-- Session configuration fields assigned by `Session.__init__`
(session.py lines 63-81). -/
structure SessionConfig where
  session_name : String
  length_repeat : Nat
  n_repeat : Nat
  n_confs : Nat
  solvent_info : List String
  deriving DecidableEq

/-- Embedding of `Session.__init__` (session.py lines 63-84).
`valid_solvents` is the allow-list constant imported from `utilities`; the
construction logic itself is in the source: a non-`None` solvent absent from
the allow-list raises `Exception('Invalid solvent choice. Valid solvents:',
[i for i in valid_solvents])` — the error value carries the enumerated
allow-list — before the work-log file `temp` is touched; otherwise
`solvent_info` is set to `['-gbsa', solvent]` (or stays `[]` for `None`) and
`temp` is opened with mode `'w'`, truncating it to empty.  `prevTemp` is the
content of `temp` left by any previous session; the second component of a
successful result is the work-log content after construction. -/
def mkSession (valid_solvents : List String) (session_name : String)
    (length_repeat n_repeat n_confs : Nat) (solvent : Option String)
    (prevTemp : List Composition) :
    Except (String × List String) (SessionConfig × List Composition) :=
  match solvent with
  | none =>
      .ok (⟨session_name, length_repeat, n_repeat, n_confs, []⟩, [])
  | some s =>
      if s ∈ valid_solvents then
        .ok (⟨session_name, length_repeat, n_repeat, n_confs, ["-gbsa", s]⟩, [])
      else
        .error ("Invalid solvent choice. Valid solvents:", valid_solvents)

/-- Observable effects of one `screening_protocol` dispatch (session.py
lines 182-202): stage `i` of the five-stage pipeline starting, the
success-path `property_log(...)` append to the screening-output file, the
failure-path `error_log(permutation, monomers_dict, e)` entry carrying the
composition and the caught exception, and the `remove_junk()` cleanup of the
per-composition working directory. -/
inductive Effect where
  | stage (i : Nat)
  | property_log (p : Composition)
  | error_log (p : Composition) (e : String)
  | remove_junk
  deriving DecidableEq

deriving instance DecidableEq for Except

/-- Outcome of each of the five pipeline stages for one composition.  The
stages wrap external computations (structure embedding, force-field search,
`xtb`, `stda`) and are black boxes here: `.error e` models the stage raising
exception `e` (nonzero process exit or transcript-parse failure), `.ok ()`
models it completing. -/
structure StageOutcomes where
  generate_polymer : Except String Unit
  conformer_search : Except String Unit
  xtb_opt : Except String Unit
  xtb_calc_potentials : Except String Unit
  stda_calc_excitation : Except String Unit
  deriving DecidableEq

/-- Stage outcome selected by 1-based stage index (stage 1 =
`generate_polymer` … stage 5 = `stda_calc_excitation`). -/
def stageResult (o : StageOutcomes) : Nat → Except String Unit
  | 1 => o.generate_polymer
  | 2 => o.conformer_search
  | 3 => o.xtb_opt
  | 4 => o.xtb_calc_potentials
  | 5 => o.stda_calc_excitation
  | _ => .ok ()

/-- Effect trace of the `try/except` body of `screening_protocol`
(session.py lines 190-202) for one non-duplicate composition `p`: the five
stages run in strict order; the first raising stage aborts all later stages
and control moves to the `except` branch, which records
`error_log(permutation, monomers_dict, e)` and then runs `remove_junk()`;
on full success `property_log(...)` is recorded and then `remove_junk()`. -/
def runnerTrace (p : Composition) (o : StageOutcomes) : List Effect :=
  Effect.stage 1 ::
    match o.generate_polymer with
    | .error e => [Effect.error_log p e, Effect.remove_junk]
    | .ok _ =>
      Effect.stage 2 ::
        match o.conformer_search with
        | .error e => [Effect.error_log p e, Effect.remove_junk]
        | .ok _ =>
          Effect.stage 3 ::
            match o.xtb_opt with
            | .error e => [Effect.error_log p e, Effect.remove_junk]
            | .ok _ =>
              Effect.stage 4 ::
                match o.xtb_calc_potentials with
                | .error e => [Effect.error_log p e, Effect.remove_junk]
                | .ok _ =>
                  Effect.stage 5 ::
                    match o.stda_calc_excitation with
                    | .error e => [Effect.error_log p e, Effect.remove_junk]
                    | .ok _ => [Effect.property_log p, Effect.remove_junk]

/-- One full `screening_protocol` call (session.py lines 172-202) acting on
the pair (work-log, accumulated effect trace): a composition already present
in either orientation is skipped entirely; otherwise it is appended to the
work-log and the runner executes under the stage-outcome assignment `f`. -/
def dispatchStep (f : Composition → StageOutcomes)
    (st : List Composition × List Effect) (p : Composition) :
    List Composition × List Effect :=
  if p ∈ st.1 ∨ p.reverse ∈ st.1 then st
  else (st.1 ++ [p], st.2 ++ runnerTrace p (f p))

/-- The whole screening loop (`Session.screen` dispatching
`screening_protocol` over every enumerated composition, sequential
semantics): final work-log and effect trace, starting from the empty
work-log written by `Session.__init__`. -/
def screeningRun (ps : List Composition) (f : Composition → StageOutcomes) :
    List Composition × List Effect :=
  ps.foldl (dispatchStep f) ([], [])

/-- The comparison used by `content.sort(key=operator.itemgetter(0, 1))` in
`Session.output_sort` (session.py line 340): Python compares the key tuples
`(row[0], row[1])` lexicographically, strings by code points. -/
def rowLe (r s : List String) : Prop :=
  r.getD 0 "" < s.getD 0 "" ∨ (r.getD 0 "" = s.getD 0 "" ∧ r.getD 1 "" ≤ s.getD 1 "")

instance rowLe.instDecidableRel : DecidableRel rowLe := fun r s =>
  inferInstanceAs
    (Decidable (r.getD 0 "" < s.getD 0 "" ∨
      (r.getD 0 "" = s.getD 0 "" ∧ r.getD 1 "" ≤ s.getD 1 "")))

/-- Embedding of `Session.output_sort` (session.py lines 334-345) on the
whitespace-split lines of the screening-output file: `lines[0]` is the
header and is rewritten unchanged; `lines[1:]` is sorted in place by the
`(row[0], row[1])` key.  Python's `list.sort` is stable, and for a total
preorder the stable ascending reordering is unique, so the stable
`List.insertionSort` computes exactly the list `list.sort` produces. -/
def output_sort (lines : List (List String)) : List (List String) :=
  lines.take 1 ++ List.insertionSort rowLe (lines.drop 1)

/-! ### Work-log deduplication lemmas -/

/-- A `dedupStep` never removes entries: the old log stays a prefix. -/
lemma dedupStep_eq_or_append (log : List Composition) (p : Composition) :
    dedupStep log p = log ∨ dedupStep log p = log ++ [p] := by
  unfold dedupStep
  split
  · exact Or.inl rfl
  · exact Or.inr rfl

/-- Entries already in the work-log survive any number of dedup steps. -/
lemma mem_runDedup_of_mem {a : Composition} {log : List Composition}
    (ps : List Composition) (h : a ∈ log) : a ∈ runDedup log ps := by
  induction ps generalizing log with
  | nil => exact h
  | cons p ps ih =>
    have hs : a ∈ dedupStep log p := by
      rcases dedupStep_eq_or_append log p with he | he <;>
        simp [he, List.mem_append, h]
    exact ih hs

/-- Every entry of the final work-log is an old entry or one of the
processed compositions. -/
lemma mem_of_mem_runDedup {a : Composition} {log : List Composition}
    {ps : List Composition} (h : a ∈ runDedup log ps) : a ∈ log ∨ a ∈ ps := by
  induction ps generalizing log with
  | nil => exact Or.inl h
  | cons p ps ih =>
    rcases @ih (dedupStep log p) h with hl | hp
    · unfold dedupStep at hl
      split at hl
      · exact Or.inl hl
      · rcases List.mem_append.mp hl with hl | hl
        · exact Or.inl hl
        · simp only [List.mem_singleton] at hl
          exact Or.inr (by simp [hl])
    · exact Or.inr (List.mem_cons_of_mem _ hp)

/-- A dedup step preserves the no-reverse-pair invariant of the work-log. -/
lemma dedupStep_inv {log : List Composition} {p : Composition}
    (h : ∀ a ∈ log, ∀ b ∈ log, a = b.reverse → a = b) :
    ∀ a ∈ dedupStep log p, ∀ b ∈ dedupStep log p, a = b.reverse → a = b := by
  unfold dedupStep
  split
  · exact h
  · rename_i hnot
    push_neg at hnot
    intro a ha b hb hr
    simp only [List.mem_append, List.mem_singleton] at ha hb
    rcases ha with ha | ha <;> rcases hb with hb | hb
    · exact h a ha b hb hr
    · subst hb
      rw [hr] at ha
      exact absurd ha hnot.2
    · subst ha
      have hb2 : b = a.reverse := by
        rw [hr, List.reverse_reverse]
      rw [hb2] at hb
      exact absurd hb hnot.2
    · subst ha
      subst hb
      rfl

/-- The no-reverse-pair invariant is preserved over a whole dedup run. -/
lemma runDedup_inv {log : List Composition}
    (ps : List Composition) (h : ∀ a ∈ log, ∀ b ∈ log, a = b.reverse → a = b) :
    ∀ a ∈ runDedup log ps, ∀ b ∈ runDedup log ps, a = b.reverse → a = b := by
  induction ps generalizing log with
  | nil => exact h
  | cons p ps ih => exact ih (dedupStep_inv h)

/-- A dedup step preserves distinctness of the work-log entries. -/
lemma dedupStep_nodup {log : List Composition} {p : Composition}
    (h : log.Nodup) : (dedupStep log p).Nodup := by
  unfold dedupStep
  split
  · exact h
  · rename_i hnot
    push_neg at hnot
    simpa [List.nodup_append, h] using hnot.1

/-- Distinctness of the work-log entries is preserved over a dedup run. -/
lemma runDedup_nodup {log : List Composition}
    (ps : List Composition) (h : log.Nodup) : (runDedup log ps).Nodup := by
  induction ps generalizing log with
  | nil => exact h
  | cons p ps ih => exact ih (dedupStep_nodup h)

/-- A palindromic composition that occurs among the processed compositions
ends up in the work-log. -/
lemma palindrome_mem_runDedup {p : Composition} (hp : p.reverse = p)
    {ps : List Composition} (hin : p ∈ ps) :
    ∀ log, p ∈ runDedup log ps := by
  induction ps with
  | nil => cases hin
  | cons q ps ih =>
    intro log
    rcases List.mem_cons.mp hin with rfl | hin
    · have : p ∈ dedupStep log p := by
        unfold dedupStep
        split
        · rename_i hmem
          rcases hmem with hmem | hmem
          · exact hmem
          · exact hp ▸ hmem
        · exact List.mem_append.mpr (Or.inr (List.mem_singleton.mpr rfl))
      exact mem_runDedup_of_mem ps this
    · exact ih hin _

/-- C1: if a composition is dispatched in a session then its reverse is
never independently dispatched in the same session: starting from the empty
work-log written at construction, the dual-orientation membership check of
`screening_protocol` keeps the work-log free of reverse pairs (and of
duplicates); on the two-monomer catalog of the design document the dispatched
work for repeat-length 2 is exactly `[A,A], [A,B], [B,B]`, the enumerated
`[B,A]` being skipped as the reverse-duplicate of `[A,B]`. -/
theorem worklog_reverse_dedup (ps : List Composition) :
    (∀ a ∈ runDedup [] ps, ∀ b ∈ runDedup [] ps, a = b.reverse → a = b) ∧
    (runDedup [] ps).Nodup ∧
    productRepeat ["A", "B"] 2 = [["A", "A"], ["A", "B"], ["B", "A"], ["B", "B"]] ∧
    runDedup [] (productRepeat ["A", "B"] 2) = [["A", "A"], ["A", "B"], ["B", "B"]] := by
  refine ⟨runDedup_inv ps ?_, runDedup_nodup ps (by simp), by decide, by decide⟩
  intro a ha
  cases ha

/-- Witness for C1 at a concrete input: the palindrome `[A,A]` is in the
work-log after processing `[[A,A]]`, equals its own reverse, and the theorem
then forces it to coincide with itself. -/
theorem worklog_reverse_dedup_witness :
    (["A", "A"] : Composition) ∈ runDedup [] [["A", "A"]] ∧
      (["A", "A"] : Composition) = (["A", "A"] : Composition).reverse ∧
      (["A", "A"] : Composition) = ["A", "A"] :=
  ⟨by decide, by decide,
    (worklog_reverse_dedup [["A", "A"]]).1 ["A", "A"] (by decide)
      ["A", "A"] (by decide) (by decide)⟩

/-- The default `BEq` count on compositions agrees with the count through
the decidable-equality instance (both are lawful). -/
lemma count_comp_eq (a : Composition) (l : List Composition) :
    l.count a = @List.count Composition instBEqOfDecidableEq a l := by
  unfold List.count
  exact List.countP_congr fun b _ => by simp [beq_eq_decide]

/-- C10: a palindromic composition is not skipped spuriously by the
dual-orientation check: it is dispatched on first encounter and skipped on
every later one, so it appears in the final work-log exactly once. -/
theorem palindrome_dispatched_once (p : Composition) (ps : List Composition)
    (hp : p.reverse = p) (hin : p ∈ ps) :
    (runDedup [] ps).count p = 1 := by
  rw [count_comp_eq]
  exact List.count_eq_one_of_mem (runDedup_nodup ps (by simp))
    (palindrome_mem_runDedup hp hin [])

/-- Witness for C10: the palindrome `[A,A]`, enumerated twice, is recorded
in the work-log exactly once. -/
theorem palindrome_dispatched_once_witness :
    (["A", "A"] : Composition).reverse = ["A", "A"] ∧
      (["A", "A"] : Composition) ∈ [["A", "A"], ["A", "A"]] ∧
      (runDedup [] [["A", "A"], ["A", "A"]]).count ["A", "A"] = 1 :=
  ⟨by decide, by decide,
    palindrome_dispatched_once ["A", "A"] [["A", "A"], ["A", "A"]]
      (by decide) (by decide)⟩

/-! ### Session construction -/

/-- C7: a non-`None` solvent outside the allow-list makes construction fail
immediately with an error that carries the enumerated list of valid
solvents, before any screening work starts; a solvent from the allow-list
(or `None`) lets construction succeed with the corresponding `solvent_info`
fixed in the session configuration. -/
theorem session_solvent_validation (valid_solvents : List String)
    (session_name : String) (length_repeat n_repeat n_confs : Nat)
    (prevTemp : List Composition) :
    (∀ s, s ∉ valid_solvents →
      mkSession valid_solvents session_name length_repeat n_repeat n_confs
          (some s) prevTemp =
        .error ("Invalid solvent choice. Valid solvents:", valid_solvents)) ∧
    (∀ s, s ∈ valid_solvents →
      mkSession valid_solvents session_name length_repeat n_repeat n_confs
          (some s) prevTemp =
        .ok (⟨session_name, length_repeat, n_repeat, n_confs, ["-gbsa", s]⟩, [])) ∧
    mkSession valid_solvents session_name length_repeat n_repeat n_confs
        none prevTemp =
      .ok (⟨session_name, length_repeat, n_repeat, n_confs, []⟩, []) := by
  refine ⟨fun s hs => ?_, fun s hs => ?_, rfl⟩
  · simp [mkSession, hs]
  · simp [mkSession, hs]

/-- Witness for C7: with allow-list `[benzene]`, the solvent `water` is
rejected with the enumerated allow-list and `benzene` is accepted. -/
theorem session_solvent_validation_witness :
    ("water" ∉ ["benzene"] ∧
      mkSession ["benzene"] "s" 2 4 8 (some "water") [] =
        .error ("Invalid solvent choice. Valid solvents:", ["benzene"])) ∧
      ("benzene" ∈ ["benzene"] ∧
        mkSession ["benzene"] "s" 2 4 8 (some "benzene") [] =
          .ok (⟨"s", 2, 4, 8, ["-gbsa", "benzene"]⟩, [])) :=
  ⟨⟨by decide,
      (session_solvent_validation ["benzene"] "s" 2 4 8 []).1 "water" (by decide)⟩,
    ⟨by decide,
      (session_solvent_validation ["benzene"] "s" 2 4 8 []).2.1 "benzene" (by decide)⟩⟩

/-- C9: successful construction truncates the work-log file `temp` to empty
regardless of what any previous session left there, so the dedup ledger
never carries entries across constructions; within a session the ledger
changes only by the appends of `screening_protocol`: each dedup step either
leaves it unchanged or appends the one new composition at the end. -/
theorem session_truncates_worklog (valid_solvents : List String)
    (session_name : String) (length_repeat n_repeat n_confs : Nat)
    (solvent : Option String) (prevTemp : List Composition) :
    (∀ cfg temp,
      mkSession valid_solvents session_name length_repeat n_repeat n_confs
          solvent prevTemp = .ok (cfg, temp) → temp = []) ∧
    (∀ log p, dedupStep log p = log ∨ dedupStep log p = log ++ [p]) ∧
    (∀ log ps, ∃ tail, runDedup log ps = log ++ tail) := by
  refine ⟨fun cfg temp h => ?_, dedupStep_eq_or_append, fun log ps => ?_⟩
  · unfold mkSession at h
    rcases solvent with _ | s
    · injection h with h1
      injection h1 with h2 h3
      exact h3.symm
    · by_cases hs : s ∈ valid_solvents <;> simp [hs] at h
      exact h.2
  · induction ps generalizing log with
    | nil => exact ⟨[], by simp [runDedup]⟩
    | cons p ps ih =>
      obtain ⟨tail, htail⟩ := ih (dedupStep log p)
      have hstep : runDedup log (p :: ps) = runDedup (dedupStep log p) ps := rfl
      rcases dedupStep_eq_or_append log p with he | he
      · exact ⟨tail, by rw [hstep, htail, he]⟩
      · exact ⟨p :: tail, by rw [hstep, htail, he]; simp⟩

/-- Witness for C9: a previous session's ledger entry `[X,X]` does not
survive construction — the post-construction work-log is empty. -/
theorem session_truncates_worklog_witness :
    mkSession [] "s" 2 4 8 none [["X", "X"]] =
        .ok (⟨"s", 2, 4, 8, []⟩, ([] : List Composition)) ∧
      ([] : List Composition) = [] :=
  ⟨by decide,
    (session_truncates_worklog [] "s" 2 4 8 none [["X", "X"]]).1
      ⟨"s", 2, 4, 8, []⟩ [] (by decide)⟩

/-! ### Per-composition pipeline failure isolation -/

/-- The work-log component of a dispatch step ignores the stage outcomes:
it is exactly the dedup step. -/
lemma dispatchStep_fst (f : Composition → StageOutcomes)
    (st : List Composition × List Effect) (p : Composition) :
    (dispatchStep f st p).1 = dedupStep st.1 p := by
  unfold dispatchStep dedupStep
  split
  · rfl
  · rfl

/-- The dispatched work of a screening run is independent of every stage
outcome: whatever fails inside one composition's pipeline, the work-log ends
up exactly as the dedup pass alone would leave it, so a failing composition
never aborts its siblings or the session. -/
lemma screeningRun_fst (ps : List Composition)
    (f : Composition → StageOutcomes) :
    (screeningRun ps f).1 = runDedup [] ps := by
  suffices h : ∀ st : List Composition × List Effect,
      (ps.foldl (dispatchStep f) st).1 = ps.foldl dedupStep st.1 from h ([], [])
  induction ps with
  | nil => intro st; rfl
  | cons p ps ih =>
    intro st
    have := ih (dispatchStep f st p)
    rw [List.foldl_cons, List.foldl_cons, this, dispatchStep_fst]

/-- C5: when stage `i` of a dispatched composition's pipeline raises, the
stages after `i` are never started, the failure is recorded through
`error_log` exactly once — carrying that composition and the causing error,
and nothing else is ever recorded on the error channel of this dispatch —
no `property_log` record reaches the screening-output file for it, and the
session's dispatched work is unaffected by any stage outcomes. -/
theorem pipeline_failure_isolated (p : Composition) (o : StageOutcomes)
    (i : Nat) (e : String) (hlo : 1 ≤ i) (hhi : i ≤ 5)
    (hf : stageResult o i = .error e)
    (hpre : ∀ j, 1 ≤ j → j < i → stageResult o j = .ok ()) :
    (∀ j, i < j → Effect.stage j ∉ runnerTrace p o) ∧
    (runnerTrace p o).count (Effect.error_log p e) = 1 ∧
    (∀ q e2, Effect.error_log q e2 ∈ runnerTrace p o → q = p ∧ e2 = e) ∧
    (∀ q, Effect.property_log q ∉ runnerTrace p o) ∧
    (∀ ps f, (screeningRun ps f).1 = runDedup [] ps) := by
  have htr : runnerTrace p o =
      (List.range' 1 i).map Effect.stage ++
        [Effect.error_log p e, Effect.remove_junk] := by
    interval_cases i
    · have hcur : o.generate_polymer = Except.error e := hf
      simp only [runnerTrace, hcur]
      rfl
    · have h1 : o.generate_polymer = Except.ok () := hpre 1 (by omega) (by omega)
      have hcur : o.conformer_search = Except.error e := hf
      simp only [runnerTrace, h1, hcur]
      rfl
    · have h1 : o.generate_polymer = Except.ok () := hpre 1 (by omega) (by omega)
      have h2 : o.conformer_search = Except.ok () := hpre 2 (by omega) (by omega)
      have hcur : o.xtb_opt = Except.error e := hf
      simp only [runnerTrace, h1, h2, hcur]
      rfl
    · have h1 : o.generate_polymer = Except.ok () := hpre 1 (by omega) (by omega)
      have h2 : o.conformer_search = Except.ok () := hpre 2 (by omega) (by omega)
      have h3 : o.xtb_opt = Except.ok () := hpre 3 (by omega) (by omega)
      have hcur : o.xtb_calc_potentials = Except.error e := hf
      simp only [runnerTrace, h1, h2, h3, hcur]
      rfl
    · have h1 : o.generate_polymer = Except.ok () := hpre 1 (by omega) (by omega)
      have h2 : o.conformer_search = Except.ok () := hpre 2 (by omega) (by omega)
      have h3 : o.xtb_opt = Except.ok () := hpre 3 (by omega) (by omega)
      have h4 : o.xtb_calc_potentials = Except.ok () := hpre 4 (by omega) (by omega)
      have hcur : o.stda_calc_excitation = Except.error e := hf
      simp only [runnerTrace, h1, h2, h3, h4, hcur]
      rfl
  refine ⟨?_, ?_, ?_, ?_, screeningRun_fst⟩
  · intro j hj hmem
    rw [htr] at hmem
    rcases List.mem_append.mp hmem with hmem | hmem
    · obtain ⟨k, hk, hke⟩ := List.mem_map.mp hmem
      have hk2 : 1 ≤ k ∧ k < 1 + i := List.mem_range'_1.mp hk
      injection hke with hkj
      omega
    · simp at hmem
  · rw [htr, List.count_append]
    have h1 : ((List.range' 1 i).map Effect.stage).count
        (Effect.error_log p e) = 0 := by
      rw [List.count_eq_zero]
      intro hmem
      obtain ⟨k, _, hke⟩ := List.mem_map.mp hmem
      exact absurd hke (by simp)
    rw [h1]
    simp [List.count_cons]
  · intro q e2 hmem
    rw [htr] at hmem
    rcases List.mem_append.mp hmem with hmem | hmem
    · obtain ⟨k, _, hke⟩ := List.mem_map.mp hmem
      exact absurd hke (by simp)
    · simp only [List.mem_cons, List.not_mem_nil, or_false] at hmem
      rcases hmem with hmem | hmem
      · injection hmem with hq he2
        exact ⟨hq, he2⟩
      · exact absurd hmem (by simp)
  · intro q hmem
    rw [htr] at hmem
    rcases List.mem_append.mp hmem with hmem | hmem
    · obtain ⟨k, _, hke⟩ := List.mem_map.mp hmem
      exact absurd hke (by simp)
    · simp at hmem

/-- Witness for C5: a conformer-search failure (stage 2) on composition
`[A,B]` leaves exactly one error-log record and the later stages never
start. -/
theorem pipeline_failure_isolated_witness :
    stageResult ⟨.ok (), .error "boom", .ok (), .ok (), .ok ()⟩ 2 =
        .error "boom" ∧
      (runnerTrace ["A", "B"] ⟨.ok (), .error "boom", .ok (), .ok (), .ok ()⟩).count
          (Effect.error_log ["A", "B"] "boom") = 1 :=
  ⟨by decide,
    (pipeline_failure_isolated ["A", "B"]
        ⟨.ok (), .error "boom", .ok (), .ok (), .ok ()⟩ 2 "boom"
        (by omega) (by omega) (by decide)
        (fun j hj1 hj2 => by
          have : j = 1 := by omega
          subst this
          rfl)).2.1⟩

/-- C8: for every dispatch of a non-duplicate composition, the working
directory's junk removal is the last effect before control returns to the
coordinator, on the success path and on every failure path alike, and it
runs exactly once per dispatch. -/
theorem workdir_cleanup_always (p : Composition) (o : StageOutcomes) :
    (runnerTrace p o).getLast? = some Effect.remove_junk ∧
    (runnerTrace p o).count Effect.remove_junk = 1 := by
  obtain ⟨g, c, t, u, v⟩ := o
  cases g <;> cases c <;> cases t <;> cases u <;> cases v <;>
    simp [runnerTrace, List.count_cons]

/-! ### Exhaustive enumeration -/

/-- The product space has exactly `|catalog| ^ L` compositions. -/
lemma productRepeat_length (ms : List String) (L : Nat) :
    (productRepeat ms L).length = ms.length ^ L := by
  induction L with
  | zero => simp [productRepeat]
  | succ n ih =>
    simp only [productRepeat, List.length_flatMap]
    have hmap : List.map (List.length ∘ fun m =>
        (productRepeat ms n).map fun t => m :: t) ms =
        List.map (fun _ => ms.length ^ n) ms :=
      List.map_congr_left fun m _ => by simp [ih]
    rw [hmap, List.map_const', List.sum_replicate, smul_eq_mul, pow_succ,
      Nat.mul_comm]

/-- A tuple is enumerated exactly when it has the repeat length and each of
its positions is a catalog identifier. -/
lemma mem_productRepeat {ms : List String} {L : Nat} {t : Composition} :
    t ∈ productRepeat ms L ↔ t.length = L ∧ ∀ x ∈ t, x ∈ ms := by
  induction L generalizing t with
  | zero =>
    simp only [productRepeat, List.mem_singleton]
    constructor
    · rintro rfl
      simp
    · rintro ⟨h, -⟩
      exact List.length_eq_zero.mp h
  | succ n ih =>
    simp only [productRepeat, List.mem_flatMap, List.mem_map]
    constructor
    · rintro ⟨m, hm, t2, ht2, rfl⟩
      obtain ⟨hl, hall⟩ := ih.mp ht2
      refine ⟨by simp [hl], ?_⟩
      intro x hx
      rcases List.mem_cons.mp hx with rfl | hx
      · exact hm
      · exact hall x hx
    · rintro ⟨hl, hall⟩
      rcases t with _ | ⟨m, t2⟩
      · cases hl
      · refine ⟨m, hall m (by simp), t2, ih.mpr ⟨by simpa using hl, ?_⟩, rfl⟩
        intro x hx
        exact hall x (List.mem_cons_of_mem _ hx)

/-- Distinct catalog identifiers enumerate into distinct compositions. -/
lemma productRepeat_nodup {ms : List String} (h : ms.Nodup) (L : Nat) :
    (productRepeat ms L).Nodup := by
  induction L with
  | zero => simp [productRepeat]
  | succ n ih =>
    refine List.nodup_flatMap.mpr ⟨fun m _ => ?_, ?_⟩
    · exact ih.map fun a b hab => by injection hab
    · refine h.imp ?_
      intro a b hab
      intro t hta htb
      simp only [List.mem_map] at hta htb
      obtain ⟨t1, -, ht1⟩ := hta
      obtain ⟨t2, -, ht2⟩ := htb
      rw [← ht1] at ht2
      injection ht2 with h1 h2
      exact hab h1.symm

/-- The enumeration is lexicographically ordered with respect to any strict
order that lists the catalog in order. -/
lemma productRepeat_pairwise_lex {ms : List String} {r : String → String → Prop}
    (h : ms.Pairwise r) (L : Nat) :
    (productRepeat ms L).Pairwise (List.Lex r) := by
  induction L with
  | zero => simp [productRepeat]
  | succ n ih =>
    refine List.pairwise_flatMap.mpr ⟨fun m _ => ?_, ?_⟩
    · exact (List.pairwise_map).mpr (ih.imp fun hab => List.Lex.cons hab)
    · refine h.imp ?_
      intro a b hab x hx y hy
      simp only [List.mem_map] at hx hy
      obtain ⟨t1, -, ht1⟩ := hx
      obtain ⟨t2, -, ht2⟩ := hy
      rw [← ht1, ← ht2]
      exact List.Lex.rel hab

/-- A duplicate-free catalog is listed in strictly increasing position
order. -/
lemma pairwise_indexOf_lt {ms : List String} (h : ms.Nodup) :
    ms.Pairwise fun a b => ms.indexOf a < ms.indexOf b := by
  induction ms with
  | nil => exact List.Pairwise.nil
  | cons c rest ih =>
    obtain ⟨hc, hrest⟩ := List.pairwise_cons.mp h
    refine List.pairwise_cons.mpr ⟨?_, ?_⟩
    · intro b hb
      have hbc : b ≠ c := fun hbc => hc b hb hbc.symm
      rw [List.indexOf_cons_self, List.indexOf_cons_ne _ hbc.symm]
      exact Nat.succ_pos _
    · refine (ih hrest).imp_of_mem ?_
      intro a b ha hb hab
      have hac : a ≠ c := fun hx => hc a ha hx.symm
      have hbc : b ≠ c := fun hx => hc b hb hx.symm
      rw [List.indexOf_cons_ne _ hac.symm, List.indexOf_cons_ne _ hbc.symm]
      exact Nat.succ_lt_succ hab

/-- C2: over a duplicate-free catalog of size `m` and repeat length `L`, the
exhaustive branch of `get_polymer_compositions` yields exactly `m ^ L`
compositions, each ordered tuple of the product space exactly once, in
lexicographic order with respect to the catalog-position order — an order
that, being computed by a pure function of the catalog, is identical on
every run over the same catalog (the result never depends on the RNG
stream). -/
theorem exhaustive_enumeration_spec (ms : List String) (L : Nat)
    (draws : List Nat) (hnd : ms.Nodup) :
    (get_polymer_compositions ms L 0 draws).length = ms.length ^ L ∧
    (∀ t : Composition, t.length = L → (∀ x ∈ t, x ∈ ms) →
      (get_polymer_compositions ms L 0 draws).count t = 1) ∧
    (get_polymer_compositions ms L 0 draws).Pairwise
      (List.Lex fun a b => ms.indexOf a < ms.indexOf b) ∧
    (∀ draws2 : List Nat,
      get_polymer_compositions ms L 0 draws2 =
        get_polymer_compositions ms L 0 draws) := by
  have hexh : get_polymer_compositions ms L 0 draws = productRepeat ms L := rfl
  refine ⟨by rw [hexh]; exact productRepeat_length ms L, ?_, ?_, fun _ => rfl⟩
  · intro t hlen hall
    rw [hexh, count_comp_eq]
    exact List.count_eq_one_of_mem (productRepeat_nodup hnd L)
      (mem_productRepeat.mpr ⟨hlen, hall⟩)
  · rw [hexh]
    exact productRepeat_pairwise_lex (pairwise_indexOf_lt hnd) L

/-- Witness for C2 on the two-monomer catalog at repeat length 2: four
compositions, and the tuple `[A,B]` occurs exactly once. -/
theorem exhaustive_enumeration_spec_witness :
    (["A", "B"] : List String).Nodup ∧
      (get_polymer_compositions ["A", "B"] 2 0 []).length = 2 ^ 2 ∧
      (get_polymer_compositions ["A", "B"] 2 0 []).count ["A", "B"] = 1 :=
  ⟨by decide,
    by simpa using (exhaustive_enumeration_spec ["A", "B"] 2 [] (by decide)).1,
    (exhaustive_enumeration_spec ["A", "B"] 2 [] (by decide)).2.1
      ["A", "B"] (by decide) (by decide)⟩

/-! ### Random sampling -/

/-- Every composition yielded by the random-selection loop is a position of
the product space. -/
lemma mem_of_mem_randomLoop {prod : List Composition} {k : Nat}
    {draws : List Nat} {y : Composition}
    (h : y ∈ randomLoop prod k draws) : y ∈ prod := by
  induction draws generalizing k with
  | nil => cases h
  | cons d ds ih =>
    unfold randomLoop at h
    split at h
    · cases h
    · rcases hget : prod[d]? with _ | item
      · rw [hget] at h
        exact ih h
      · rw [hget] at h
        rcases List.mem_cons.mp h with rfl | h
        · exact List.getElem?_mem hget
        · exact ih h

/-- The random-selection loop yields at most the requested number of
compositions. -/
lemma randomLoop_length_le (prod : List Composition) (k : Nat)
    (draws : List Nat) : (randomLoop prod k draws).length ≤ k := by
  induction draws generalizing k with
  | nil => simp [randomLoop]
  | cons d ds ih =>
    unfold randomLoop
    split
    · simp
    · rcases hget : prod[d]? with _ | item
      · exact (ih k).trans (Nat.le_refl k)
      · rename_i hk
        simp only [List.length_cons]
        have := ih (k - 1)
        omega

/-- A dedup run over entirely fresh, pairwise reverse-compatible
compositions appends them all. -/
lemma runDedup_of_fresh {ps : List Composition} :
    ∀ log, (∀ a ∈ ps, a ∉ log ∧ a.reverse ∉ log) →
      ps.Pairwise (fun a b => b ≠ a ∧ b ≠ a.reverse) →
      runDedup log ps = log ++ ps := by
  induction ps with
  | nil => intro log _ _; simp [runDedup]
  | cons p ps ih =>
    intro log hfresh hpair
    obtain ⟨hp, hps⟩ := List.pairwise_cons.mp hpair
    have hstep : dedupStep log p = log ++ [p] := by
      unfold dedupStep
      rw [if_neg]
      push_neg
      exact hfresh p (by simp)
    have hrec : runDedup (log ++ [p]) ps = (log ++ [p]) ++ ps := by
      refine ih (log ++ [p]) ?_ hps
      intro a ha
      obtain ⟨h1, h2⟩ := hfresh a (List.mem_cons_of_mem _ ha)
      obtain ⟨h3, h4⟩ := hp a ha
      constructor
      · simp only [List.mem_append, List.mem_singleton]
        rintro (hin | rfl)
        · exact h1 hin
        · exact h3 rfl
      · simp only [List.mem_append, List.mem_singleton]
        rintro (hin | hrev)
        · exact h2 hin
        · exact h4 (by rw [← hrev, List.reverse_reverse])
    have : runDedup log (p :: ps) = runDedup (dedupStep log p) ps := rfl
    rw [this, hstep, hrec, List.append_assoc]
    rfl

/-- The final work-log of a dedup run from the empty log is no longer than
its input. -/
lemma runDedup_length_le (ps : List Composition) :
    (runDedup [] ps).length ≤ ps.length := by
  have hsub : runDedup [] ps ⊆ ps := by
    intro a ha
    rcases mem_of_mem_runDedup ha with h | h
    · cases h
    · exact h
  exact ((runDedup_nodup ps (by simp)).subperm hsub).length_le

/-- C3 counterexample: with catalog `[A, B]`, repeat length 1 and requested
count `k = 2 ≤ 2^1`, the `randint` draw sequence `0, 0` (each draw inside
the legal inclusive range `[0, len_product]`) makes the generator yield the
composition at index 0 twice; `counter` still reaches 2, the duplicate is
filtered by the dedup check, and only one distinct composition is
dispatched — not the claimed `k = 2`. -/
theorem random_select_exact_k_counterexample :
    2 ≤ (["A", "B"] : List String).length ^ 1 ∧
      (∀ d ∈ [0, 0], d ≤ (["A", "B"] : List String).length ^ 1) ∧
      get_polymer_compositions ["A", "B"] 1 2 [0, 0] = [["A"], ["A"]] ∧
      (runDedup [] (get_polymer_compositions ["A", "B"] 1 2 [0, 0])).length
        = 1 := by
  refine ⟨by decide, by decide, by decide, by decide⟩

/-- C3 amended: random sampling with count `k` dispatches at most `k`
distinct compositions, every one of them a position of the product space;
when the loop yields `k` compositions that are pairwise distinct and
pairwise non-reverse, exactly `k` distinct compositions are dispatched.
(The source does not retry duplicate draws: a repeated index, or a draw
whose composition is the reverse of an earlier one, is silently filtered by
the dedup check and under-counts the dispatched set.) -/
theorem random_select_dispatch_bounds (ms : List String) (L k : Nat)
    (draws : List Nat) (hk : k ≠ 0) :
    (runDedup [] (get_polymer_compositions ms L k draws)).length ≤ k ∧
    (∀ y ∈ get_polymer_compositions ms L k draws, y ∈ productRepeat ms L) ∧
    ((get_polymer_compositions ms L k draws).length = k →
      (get_polymer_compositions ms L k draws).Pairwise
        (fun a b => b ≠ a ∧ b ≠ a.reverse) →
      (runDedup [] (get_polymer_compositions ms L k draws)).length = k) := by
  have hrand : get_polymer_compositions ms L k draws =
      randomLoop (productRepeat ms L) k draws := by
    unfold get_polymer_compositions
    rw [if_neg hk]
  refine ⟨?_, ?_, ?_⟩
  · exact (runDedup_length_le _).trans (by rw [hrand]; exact randomLoop_length_le _ _ _)
  · intro y hy
    rw [hrand] at hy
    exact mem_of_mem_randomLoop hy
  · intro hlen hpair
    have : runDedup [] (get_polymer_compositions ms L k draws) =
        [] ++ get_polymer_compositions ms L k draws :=
      runDedup_of_fresh [] (fun a _ => ⟨by simp, by simp⟩) hpair
    rw [this, List.nil_append, hlen]

/-- Witness for C3 amended: catalog `[A, B]`, `L = 1`, `k = 2`, draws
`0, 1`: two distinct non-reverse compositions are yielded and exactly two
are dispatched. -/
theorem random_select_dispatch_bounds_witness :
    (get_polymer_compositions ["A", "B"] 1 2 [0, 1]).length = 2 ∧
      (get_polymer_compositions ["A", "B"] 1 2 [0, 1]).Pairwise
        (fun a b => b ≠ a ∧ b ≠ a.reverse) ∧
      (runDedup [] (get_polymer_compositions ["A", "B"] 1 2 [0, 1])).length
        = 2 :=
  ⟨by decide, by decide,
    (random_select_dispatch_bounds ["A", "B"] 1 2 [0, 1] (by decide)).2.2
      (by decide) (by decide)⟩

/-- C4 counterexample: with catalog `[A]` and repeat length 1 the product
space has `1^1 = 1` position, yet requesting `k = 2 > 1` does not fail
fast: `get_polymer_compositions` contains no validation and no raise, the
draw loop simply runs, compositions are drawn (here two, under the draw
sequence `0, 0`), and enumeration completes with duplicates instead of
aborting before any draw. -/
theorem random_select_overflow_counterexample :
    (["A"] : List String).length ^ 1 < 2 ∧
      get_polymer_compositions ["A"] 1 2 [0, 0] = [["A"], ["A"]] ∧
      get_polymer_compositions ["A"] 1 2 [0, 0] ≠ [] := by
  refine ⟨by decide, by decide, by decide⟩

/-- C4 amended: a requested count `k` exceeding the product-space size
`m ^ L` raises no error and is not detected before drawing; the loop keeps
drawing, and if it yields `k` compositions they necessarily contain
duplicates (the product space is too small), so the dispatched distinct set
stays at most `m ^ L < k`. -/
theorem random_select_overflow_no_failfast (ms : List String) (L k : Nat)
    (draws : List Nat) (hk : k ≠ 0) (hgt : ms.length ^ L < k) :
    ((get_polymer_compositions ms L k draws).length = k →
      ¬ (get_polymer_compositions ms L k draws).Nodup) ∧
    (runDedup [] (get_polymer_compositions ms L k draws)).length ≤
      ms.length ^ L := by
  have hrand : get_polymer_compositions ms L k draws =
      randomLoop (productRepeat ms L) k draws := by
    unfold get_polymer_compositions
    rw [if_neg hk]
  have hsub : get_polymer_compositions ms L k draws ⊆ productRepeat ms L := by
    intro y hy
    rw [hrand] at hy
    exact mem_of_mem_randomLoop hy
  constructor
  · intro hlen hnd
    have := (hnd.subperm hsub).length_le
    rw [hlen, productRepeat_length] at this
    omega
  · have hsub2 : runDedup [] (get_polymer_compositions ms L k draws) ⊆
        productRepeat ms L := by
      intro a ha
      rcases mem_of_mem_runDedup ha with h | h
      · cases h
      · exact hsub h
    have := ((runDedup_nodup _ (by simp)).subperm hsub2).length_le
    rw [productRepeat_length] at this
    exact this

/-- Witness for C4 amended: catalog `[A]`, `L = 1`, `k = 2`: the two yielded
compositions are not duplicate-free and at most one is dispatched. -/
theorem random_select_overflow_no_failfast_witness :
    (¬ (get_polymer_compositions ["A"] 1 2 [0, 0]).Nodup) ∧
      (runDedup [] (get_polymer_compositions ["A"] 1 2 [0, 0])).length ≤ 1 :=
  ⟨(random_select_overflow_no_failfast ["A"] 1 2 [0, 0] (by decide)
        (by decide)).1 (by decide),
    by simpa using
      (random_select_overflow_no_failfast ["A"] 1 2 [0, 0] (by decide)
        (by decide)).2⟩

/-! ### Output sorting -/

instance rowLe.instIsTotal : IsTotal (List String) rowLe := ⟨by
  intro a b
  rcases lt_trichotomy (a.getD 0 "") (b.getD 0 "") with h | h | h
  · exact Or.inl (Or.inl h)
  · rcases le_total (a.getD 1 "") (b.getD 1 "") with h2 | h2
    · exact Or.inl (Or.inr ⟨h, h2⟩)
    · exact Or.inr (Or.inr ⟨h.symm, h2⟩)
  · exact Or.inr (Or.inl h)⟩

instance rowLe.instIsTrans : IsTrans (List String) rowLe := ⟨by
  intro a b c hab hbc
  rcases hab with hab | ⟨hab1, hab2⟩ <;> rcases hbc with hbc | ⟨hbc1, hbc2⟩
  · exact Or.inl (hab.trans hbc)
  · exact Or.inl (lt_of_lt_of_eq hab hbc1)
  · exact Or.inl (lt_of_eq_of_lt hab1 hbc)
  · exact Or.inr ⟨hab1.trans hbc1, hab2.trans hbc2⟩⟩

/-- Nine-field header row used in the concrete sort example. -/
def sampleHeader : List String :=
  ["id1", "id2", "vip", "vea", "gap", "osc", "esolv", "c8", "c9"]

/-- Nine-field result row whose first two identifiers are `B`, `A`. -/
def sampleRowBA : List String := ["B", "A", "1", "2", "3", "4", "5", "6", "7"]

/-- Nine-field result row whose first two identifiers are `A`, `C`. -/
def sampleRowAC : List String := ["A", "C", "1", "2", "3", "4", "5", "6", "7"]

/-- Nine-field result row whose first two identifiers are `A`, `B`. -/
def sampleRowAB : List String := ["A", "B", "1", "2", "3", "4", "5", "6", "7"]

/-- C6: the sort pass rewrites the screening-output file as the unchanged
header followed by the same multiset of result rows, ordered by the
lexicographic `(row[0], row[1])` key, stably — any subsequence of rows that
is already in key order keeps its relative order; on the concrete rows of
the design document, `(B,A), (A,C), (A,B)` are rewritten as
`(A,B), (A,C), (B,A)` with the header first. -/
theorem output_sort_spec (header : List String) (rows : List (List String)) :
    (output_sort (header :: rows)).head? = some header ∧
    List.Perm (output_sort (header :: rows)).tail rows ∧
    List.Pairwise rowLe (output_sort (header :: rows)).tail ∧
    (∀ c, c.Pairwise rowLe → List.Sublist c rows →
      List.Sublist c (output_sort (header :: rows)).tail) ∧
    output_sort [sampleHeader, sampleRowBA, sampleRowAC, sampleRowAB] =
      [sampleHeader, sampleRowAB, sampleRowAC, sampleRowBA] := by
  have htail : (output_sort (header :: rows)).tail =
      List.insertionSort rowLe rows := by
    simp [output_sort]
  have hBA : ¬ ("B" : String) < "A" := by
    rw [String.lt_iff_toList_lt]
    decide
  have hCB : ¬ ("C" : String) ≤ "B" :=
    not_le.mpr (by rw [String.lt_iff_toList_lt]; decide)
  have h1 : ¬ rowLe sampleRowAC sampleRowAB := by
    simp only [rowLe, sampleRowAC, sampleRowAB, List.getD_cons_zero,
      List.getD_cons_succ]
    rintro (h | ⟨-, h⟩)
    · exact lt_irrefl _ h
    · exact hCB h
  have h2 : ¬ rowLe sampleRowBA sampleRowAB := by
    simp only [rowLe, sampleRowBA, sampleRowAB, List.getD_cons_zero,
      List.getD_cons_succ]
    rintro (h | ⟨h, -⟩)
    · exact hBA h
    · exact (by decide : ("B" : String) ≠ "A") h
  have h3 : ¬ rowLe sampleRowBA sampleRowAC := by
    simp only [rowLe, sampleRowBA, sampleRowAC, List.getD_cons_zero,
      List.getD_cons_succ]
    rintro (h | ⟨h, -⟩)
    · exact hBA h
    · exact (by decide : ("B" : String) ≠ "A") h
  have hex : output_sort [sampleHeader, sampleRowBA, sampleRowAC, sampleRowAB] =
      [sampleHeader, sampleRowAB, sampleRowAC, sampleRowBA] := by
    simp only [output_sort, List.insertionSort, List.orderedInsert,
      List.take, List.drop, if_neg h1, if_neg h2, if_neg h3]
    rfl
  refine ⟨by simp [output_sort], ?_, ?_, ?_, hex⟩
  · rw [htail]
    exact List.perm_insertionSort rowLe rows
  · rw [htail]
    exact List.sorted_insertionSort rowLe rows
  · intro c hc hsub
    rw [htail]
    exact List.sublist_insertionSort hc hsub

/-- Witness for C6: the key-sorted subsequence `[(A,C)]` of the example rows
remains a subsequence of the sorted body. -/
theorem output_sort_spec_witness :
    ([sampleRowAC] : List (List String)).Pairwise rowLe ∧
      List.Sublist [sampleRowAC] [sampleRowBA, sampleRowAC, sampleRowAB] ∧
      List.Sublist [sampleRowAC]
        (output_sort
          (sampleHeader :: [sampleRowBA, sampleRowAC, sampleRowAB])).tail :=
  ⟨by simp, by decide,
    (output_sort_spec sampleHeader
        [sampleRowBA, sampleRowAC, sampleRowAB]).2.2.2.1
      [sampleRowAC] (by simp) (by decide)⟩

end PolyHTS
